import Mathlib

/-!
Shallow embedding of `tiktoken_truncate/tiktoken_truncate.py` (together with
the model budget table of `tiktoken_truncate/globals.py`) and proofs of the
specification's testable properties against it.

Modelling notes.

* Python strings are `List Char`; the slice `text[:k]` is `pyslice text k`
  below.  Python slices clamp at the string length, and a negative bound
  slices from the end (`text[:-1]` drops the last character); `pyslice`
  reproduces both behaviours.

* The tokenizer (a tiktoken `Encoding`) is a black box to the library.  It is
  embedded as a parameter `tok : List Char → Nat` with
  `tok s = len(encoding.encode(s))`.  The real tokenizer is deterministic,
  gives the empty string zero tokens, and is assumed by the source design to
  be monotone on prefixes (spec sections 3 and 9); the theorems that need
  those facts take them as hypotheses.

* The per-call dictionary `encoding_cache` is dropped from the embedding:
  token counting is pure and deterministic, so every cache entry equals its
  own recomputation (the spec's Length Memo invariant), and the cache can
  change no result, only the number of tokenizer calls.  The bounds check of
  `cached_encode_length` happens before any cache access in the source, so
  its failure behaviour is also unchanged.

* The float expressions `int(high * 1.1)` and `int(low / 1.1)` are modelled
  by the exact rational truncations `Int.tdiv (high * 11) 10` and
  `Int.tdiv (low * 10) 11`.  No theorem below depends on the exact quotient:
  the source immediately takes `max(..., high + 1)` / `min(..., low - 1)`,
  and only those envelopes matter (and for the small concrete inputs used as
  witnesses the float and rational values coincide).

* Python's `//` is floor division; Lean's `/` on `Int` (`Int.ediv`) agrees
  with it for the positive divisor 2 used by the binary search.

* `estimate_avg_tokens_per_char` / `get_avg_tokens_per_char` sample a random
  string and produce a float rate.  The orchestrator consumes the rate only
  through `estimated_length = int(max_tokens / avg_tokens_per_char)`, a
  nonnegative integer (budget and rate are positive); the embedding takes
  `estimated_length` as a parameter ranging over all such values.

* Each Python `while` loop becomes fuel recursion returning
  `Option (Except String α)`: `none` means the fuel ran out (the loop was
  still running), `some (.error s)` models a raised `AssertionError`, and
  `some (.ok v)` a normal return.  Theorems either hold for every fuel or
  provide an explicit sufficient fuel.
-/

namespace TiktokenTruncate

/-- The Python slice `text[:k]`: for `k ≥ 0` the first `k` characters
(clamped at the length), for `k < 0` everything but the last `-k`
characters (clamped at the empty string). -/
def pyslice (text : List Char) (k : Int) : List Char :=
  if 0 ≤ k then text.take k.toNat else text.take (text.length - (-k).toNat)

/-- `globals.model_max_tokens`: the model-to-budget table (with the
temporary testing value 16 for `text-embedding-3-large`).  Lookup failure
(`none`) is the configuration error of an unknown model. -/
def model_max_tokens (model : String) : Option Nat :=
  if model = "text-embedding-3-large" then some 16 else none

/-- `cached_encode_length(encoding_cache, encoding, text, length)`:
raise `AssertionError` when `length > len(text)`, otherwise return
`len(encoding.encode(text[:length]))` (memoization dropped, see the header
note). -/
def cached_encode_length (tok : List Char → Nat) (text : List Char)
    (length : Int) : Except String Nat :=
  if length > (text.length : Int) then
    Except.error "AssertionError: length is greater than text"
  else
    Except.ok (tok (pyslice text length))

/-- `expand_high(encoding_cache, encoding, text, high, max_tokens)`:
grow `high` by `high = max(int(high * 1.1), high + 1)` while the token
count at `high` is within `max_tokens`, clamping to `len(text)` (and
stopping) as soon as the grown value reaches it. -/
def expand_high (fuel : Nat) (tok : List Char → Nat) (text : List Char)
    (high : Int) (max_tokens : Nat) : Option (Except String Int) :=
  match fuel with
  | 0 => none
  | fuel + 1 =>
    match cached_encode_length tok text high with
    | .error e => some (.error e)
    | .ok t =>
      if t ≤ max_tokens then
        let high' := max (Int.tdiv (high * 11) 10) (high + 1)
        if (text.length : Int) ≤ high' then some (.ok (text.length : Int))
        else expand_high fuel tok text high' max_tokens
      else some (.ok high)

/-- `expand_low(encoding_cache, encoding, text, low, max_tokens)`:
shrink `low` by `low = min(int(low / 1.1), low - 1)` while the token count
at `low` exceeds `max_tokens`; afterwards raise `AssertionError` when
`low <= 0` or `low > len(text)`. -/
def expand_low (fuel : Nat) (tok : List Char → Nat) (text : List Char)
    (low : Int) (max_tokens : Nat) : Option (Except String Int) :=
  match fuel with
  | 0 => none
  | fuel + 1 =>
    match cached_encode_length tok text low with
    | .error e => some (.error e)
    | .ok t =>
      if max_tokens < t then
        expand_low fuel tok text (min (Int.tdiv (low * 10) 11) (low - 1)) max_tokens
      else if low ≤ 0 then
        some (.error "AssertionError: low is less than or equal to 0")
      else if (text.length : Int) < low then
        some (.error "AssertionError: low is greater than len(text)")
      else some (.ok low)

/-- The `while low < high` loop of `binary_search_max_length`, together with
the two checks that follow the loop in the source (they run when the loop
condition fails). -/
def bs_loop (fuel : Nat) (tok : List Char → Nat) (text : List Char)
    (max_tokens : Nat) (low high : Int) : Option (Except String Int) :=
  match fuel with
  | 0 => none
  | fuel + 1 =>
    if low < high then
      let mid := (low + high + 1) / 2
      match cached_encode_length tok text mid with
      | .error e => some (.error e)
      | .ok mid_tokens =>
        if mid_tokens ≤ max_tokens then
          if mid < low then
            some (.error "Binary search error: mid is not greater than low")
          else if mid = low then
            if high < mid + 1 then
              some (.error "Binary search error: mid is not greater than high")
            else bs_loop fuel tok text max_tokens (mid + 1) high
          else
            if high < mid then
              some (.error "Binary search error: mid is not less than high")
            else bs_loop fuel tok text max_tokens mid high
        else
          if high < mid then
            some (.error "Binary search error: mid is not less than high")
          else if mid = high then
            if mid_tokens = max_tokens then some (.ok mid)
            else
              if mid_tokens ≤ max_tokens then
                some (.error "Binary search error: mid tokens is not less than or equal to max_tokens")
              else bs_loop fuel tok text max_tokens low (mid - 1)
          else bs_loop fuel tok text max_tokens low mid
    else
      if low ≠ high then
        some (.error "Binary search error: low is not equal to high")
      else
        match cached_encode_length tok text low with
        | .error e => some (.error e)
        | .ok t =>
          if max_tokens < t then
            some (.error "Binary search error: low tokens is not less than or equal to max_tokens")
          else some (.ok low)

/-- `binary_search_max_length(encoding_cache, encoding, text, low, high,
max_tokens)`: the two entry assertions (the window must straddle the
budget), then the search loop. -/
def binary_search_max_length (fuel : Nat) (tok : List Char → Nat)
    (text : List Char) (low high : Int) (max_tokens : Nat) :
    Option (Except String Int) :=
  match cached_encode_length tok text high with
  | .error e => some (.error e)
  | .ok th =>
    if th ≤ max_tokens then
      some (.error "Binary search error: high tokens is not less than or equal to max_tokens")
    else
      match cached_encode_length tok text low with
      | .error e => some (.error e)
      | .ok tl =>
        if max_tokens < tl then
          some (.error "Binary search error: low tokens is greater than max_tokens")
        else bs_loop fuel tok text max_tokens low high

/-- The body of `truncate_document_to_max_tokens` from the statement
`low = high` (line 171) on, with `high0` the starting bound chosen by the
estimate branch (lines 163-169). -/
def truncate_go (fuel : Nat) (tok : List Char → Nat) (max_tokens : Nat)
    (text : List Char) (high0 : Int) : Option (Except String (List Char)) :=
  match expand_high fuel tok text high0 max_tokens with
  | none => none
  | some (.error e) => some (.error e)
  | some (.ok high) =>
    if high = (text.length : Int) then some (.ok text)
    else
      match expand_low fuel tok text high0 max_tokens with
      | none => none
      | some (.error e) => some (.error e)
      | some (.ok low) =>
        match cached_encode_length tok text high with
        | .error e => some (.error e)
        | .ok t =>
          if t ≤ max_tokens then
            some (.error "High bound error: unable to truncate text")
          else
            match binary_search_max_length fuel tok text low high max_tokens with
            | none => none
            | some (.error e) => some (.error e)
            | some (.ok max_length) => some (.ok (pyslice text max_length))

/-- `truncate_document_to_max_tokens(text, model)` with the model resolved:
`max_tokens` is the model's configured budget, `tok` its tokenizer, and
`estimated_length = int(max_tokens / avg_tokens_per_char)` the initial
guess.  The `finally: encoding_cache.clear()` of the source only clears the
per-call cache and has no semantic effect. -/
def truncate_document_to_max_tokens (fuel : Nat) (tok : List Char → Nat)
    (max_tokens : Nat) (estimated_length : Int) (text : List Char) :
    Option (Except String (List Char)) :=
  if (text.length : Int) ≤ estimated_length then
    match cached_encode_length tok text (text.length : Int) with
    | .error e => some (.error e)
    | .ok t =>
      if t ≤ max_tokens then some (.ok text)
      else truncate_go fuel tok max_tokens text (text.length : Int)
  else truncate_go fuel tok max_tokens text estimated_length

/-- The tokenizer is monotone on prefixes: a prefix never has more tokens
than the longer string.  This is the spec's assumed effective monotonicity
(sections 3 and 9), taken as a hypothesis where a claim needs it. -/
def PrefixMonotone (tok : List Char → Nat) : Prop :=
  ∀ s t : List Char, s <+: t → tok s ≤ tok t


theorem pyslice_of_nonneg (text : List Char) (k : Int) (h : 0 ≤ k) :
    pyslice text k = text.take k.toNat := by
  simp [pyslice, h]

theorem pyslice_sub (text : List Char) (k : Int) : pyslice text k <+: text := by
  unfold pyslice
  split
  · exact ⟨text.drop k.toNat, List.take_append_drop _ _⟩
  · exact ⟨text.drop (text.length - (-k).toNat), List.take_append_drop _ _⟩

theorem pyslice_full (text : List Char) : pyslice text (text.length : Int) = text := by
  rw [pyslice_of_nonneg text _ (by positivity)]
  simp

theorem pyslice_length_eq (text : List Char) (k : Int) (h0 : 0 ≤ k)
    (hk : k ≤ (text.length : Int)) : (pyslice text k).length = k.toNat := by
  rw [pyslice_of_nonneg text k h0]
  simp
  omega

theorem cached_ok (tok : List Char → Nat) (text : List Char) (k : Int)
    (hk : k ≤ (text.length : Int)) :
    cached_encode_length tok text k = Except.ok (tok (pyslice text k)) := by
  unfold cached_encode_length
  rw [if_neg (by omega)]

theorem expand_high_le (tok : List Char → Nat) (text : List Char) (max_tokens : Nat) :
    ∀ (fuel : Nat) (high v : Int), high ≤ (text.length : Int) →
      expand_high fuel tok text high max_tokens = some (.ok v) →
      v ≤ (text.length : Int) := by
  intro fuel
  induction fuel with
  | zero => intro high v _ h; simp [expand_high] at h
  | succ n ih =>
    intro high v hhn h
    rw [expand_high, cached_ok tok text high hhn] at h
    simp only [] at h
    split at h
    · split at h
      · simp at h; omega
      · exact ih _ v (by omega) h
    · simp at h; omega


theorem expand_high_full (tok : List Char → Nat) (text : List Char) (max_tokens : Nat)
    (hall : ∀ k : Int, 0 ≤ k → k ≤ (text.length : Int) →
      tok (pyslice text k) ≤ max_tokens) :
    ∀ (fuel : Nat) (high : Int), 0 ≤ high → high ≤ (text.length : Int) →
      ((text.length : Int) - high).toNat + 1 ≤ fuel →
      expand_high fuel tok text high max_tokens = some (.ok (text.length : Int)) := by
  intro fuel
  induction fuel with
  | zero => intro high _ _ hf; omega
  | succ n ih =>
    intro high h0 hhn hf
    rw [expand_high, cached_ok tok text high hhn]
    simp only []
    rw [if_pos (hall high h0 hhn)]
    split
    · rfl
    · exact ih _ (by omega) (by omega) (by omega)

theorem expand_high_isSome (tok : List Char → Nat) (text : List Char) (max_tokens : Nat) :
    ∀ (fuel : Nat) (high : Int),
      ((text.length : Int) - high).toNat + 1 ≤ fuel →
      (expand_high fuel tok text high max_tokens).isSome := by
  intro fuel
  induction fuel with
  | zero => intro high hf; omega
  | succ n ih =>
    intro high hf
    rw [expand_high]
    by_cases hhn : high ≤ (text.length : Int)
    · rw [cached_ok tok text high hhn]
      simp only []
      split
      · split
        · simp
        · exact ih _ (by omega)
      · simp
    · unfold cached_encode_length
      rw [if_pos (by omega)]
      simp

theorem expand_high_fuel_mono (tok : List Char → Nat) (text : List Char)
    (max_tokens : Nat) :
    ∀ (f g : Nat) (high : Int) (v : Except String Int),
      expand_high f tok text high max_tokens = some v → f ≤ g →
      expand_high g tok text high max_tokens = some v := by
  intro f
  induction f with
  | zero => intro g high v h; simp [expand_high] at h
  | succ n ih =>
    intro g high v h hfg
    match g, hfg with
    | g + 1, _ =>
      rw [expand_high] at h ⊢
      rcases hc : cached_encode_length tok text high with e | t <;>
        rw [hc] at h <;> simp only [] at h ⊢
      · exact h
      · by_cases ht : t ≤ max_tokens
        · simp only [if_pos ht] at h ⊢
          by_cases hcl : (text.length : Int) ≤ max (Int.tdiv (high * 11) 10) (high + 1)
          · simp only [if_pos hcl] at h ⊢; exact h
          · simp only [if_neg hcl] at h ⊢; exact ih g _ v h (by omega)
        · simp only [if_neg ht] at h ⊢; exact h

theorem expand_high_det (tok : List Char → Nat) (text : List Char) (max_tokens : Nat)
    (f g : Nat) (high : Int) (v : Except String Int)
    (h : expand_high f tok text high max_tokens = some v)
    (hg : ((text.length : Int) - high).toNat + 1 ≤ g) :
    expand_high g tok text high max_tokens = some v := by
  by_cases hfg : f ≤ g
  · exact expand_high_fuel_mono tok text max_tokens f g high v h hfg
  · have hs := expand_high_isSome tok text max_tokens g high hg
    rw [Option.isSome_iff_exists] at hs
    obtain ⟨w, hw⟩ := hs
    have := expand_high_fuel_mono tok text max_tokens g f high w hw (by omega)
    rw [this] at h
    injection h with h
    rw [hw, h]


theorem cached_ok_inv (tok : List Char → Nat) (text : List Char) (k : Int) (t : Nat)
    (h : cached_encode_length tok text k = Except.ok t) :
    k ≤ (text.length : Int) ∧ t = tok (pyslice text k) := by
  unfold cached_encode_length at h
  split at h
  · cases h
  · injection h with h
    exact ⟨by omega, h.symm⟩

theorem expand_low_ok (tok : List Char → Nat) (text : List Char) (max_tokens : Nat) :
    ∀ (fuel : Nat) (low v : Int),
      expand_low fuel tok text low max_tokens = some (.ok v) →
      0 < v ∧ v ≤ (text.length : Int) ∧ tok (pyslice text v) ≤ max_tokens := by
  intro fuel
  induction fuel with
  | zero => intro low v h; simp [expand_low] at h
  | succ n ih =>
    intro low v h
    rw [expand_low] at h
    rcases hc : cached_encode_length tok text low with e | t <;>
      rw [hc] at h <;> simp only [] at h
    · cases h
    · obtain ⟨hln, ht⟩ := cached_ok_inv tok text low t hc
      by_cases htb : max_tokens < t
      · rw [if_pos htb] at h
        exact ih _ v h
      · rw [if_neg htb] at h
        by_cases h0 : low ≤ 0
        · rw [if_pos h0] at h; cases h
        · rw [if_neg h0] at h
          rw [if_neg (show ¬ (text.length : Int) < low by omega)] at h
          injection h with h
          injection h with h
          subst h
          exact ⟨by omega, hln, by omega⟩


theorem bs_sound (tok : List Char → Nat) (text : List Char) (max_tokens : Nat) :
    ∀ (fuel : Nat) (low high L : Int),
      tok (pyslice text low) ≤ max_tokens →
      max_tokens < tok (pyslice text high) →
      bs_loop fuel tok text max_tokens low high = some (.ok L) →
      low ≤ L ∧ L + 1 ≤ high ∧ tok (pyslice text L) ≤ max_tokens ∧
        max_tokens < tok (pyslice text (L + 1)) := by
  intro fuel
  induction fuel with
  | zero => intro low high L _ _ h; simp [bs_loop] at h
  | succ n ih =>
    intro low high L hlow hhigh h
    rw [bs_loop] at h
    by_cases hlh : low < high
    · rw [if_pos hlh] at h
      simp only [] at h
      have hmid1 : low + 1 ≤ (low + high + 1) / 2 := by omega
      have hmid2 : (low + high + 1) / 2 ≤ high := by omega
      rcases hc : cached_encode_length tok text ((low + high + 1) / 2) with e | mt <;>
        rw [hc] at h <;> simp only [] at h
      · cases h
      · obtain ⟨hmn, hmt⟩ := cached_ok_inv tok text _ mt hc
        by_cases htb : mt ≤ max_tokens
        · rw [if_pos htb] at h
          rw [if_neg (show ¬ (low + high + 1) / 2 < low by omega)] at h
          rw [if_neg (show ¬ (low + high + 1) / 2 = low by omega)] at h
          rw [if_neg (show ¬ high < (low + high + 1) / 2 by omega)] at h
          have hrec := ih _ high L (by omega) hhigh h
          exact ⟨by omega, hrec.2.1, hrec.2.2⟩
        · rw [if_neg htb] at h
          rw [if_neg (show ¬ high < (low + high + 1) / 2 by omega)] at h
          by_cases hmh : (low + high + 1) / 2 = high
          · rw [if_pos hmh] at h
            rw [if_neg (show ¬ mt = max_tokens by omega)] at h
            rw [if_neg htb] at h
            rw [show (low + high + 1) / 2 - 1 = low by omega] at h
            cases n with
            | zero => simp [bs_loop] at h
            | succ m =>
              rw [bs_loop] at h
              rw [if_neg (show ¬ low < low by omega)] at h
              rw [if_neg (show ¬ low ≠ low by simp)] at h
              rcases hc2 : cached_encode_length tok text low with e | tl <;>
                rw [hc2] at h <;> simp only [] at h
              · cases h
              · obtain ⟨hln2, htl2⟩ := cached_ok_inv tok text low tl hc2
                rw [if_neg (show ¬ max_tokens < tl by omega)] at h
                injection h with h
                injection h with h
                refine ⟨by omega, by omega, by rw [← h]; exact hlow, ?_⟩
                rw [show L + 1 = high by omega]
                exact hhigh
          · rw [if_neg hmh] at h
            have hrec := ih low _ L hlow (by omega) h
            exact ⟨hrec.1, by omega, hrec.2.2⟩
    · rw [if_neg hlh] at h
      by_cases heq : low = high
      · exfalso
        rw [heq] at hlow
        omega
      · rw [if_pos (show low ≠ high from heq)] at h
        cases h


theorem bs_run (tok : List Char → Nat) (text : List Char) (max_tokens : Nat) :
    ∀ (fuel : Nat) (low high : Int),
      low < high → high ≤ (text.length : Int) →
      tok (pyslice text low) ≤ max_tokens →
      max_tokens < tok (pyslice text high) →
      (high - low).toNat + 1 ≤ fuel →
      ∃ L, bs_loop fuel tok text max_tokens low high = some (.ok L) := by
  intro fuel
  induction fuel with
  | zero => intro low high hlh _ _ _ hf; omega
  | succ n ih =>
    intro low high hlh hhn hlow hhigh hf
    rw [bs_loop, if_pos hlh]
    simp only []
    have hmid1 : low + 1 ≤ (low + high + 1) / 2 := by omega
    have hmid2 : (low + high + 1) / 2 ≤ high := by omega
    rw [cached_ok tok text _ (by omega)]
    simp only []
    by_cases htb : tok (pyslice text ((low + high + 1) / 2)) ≤ max_tokens
    · rw [if_pos htb]
      rw [if_neg (show ¬ (low + high + 1) / 2 < low by omega)]
      rw [if_neg (show ¬ (low + high + 1) / 2 = low by omega)]
      rw [if_neg (show ¬ high < (low + high + 1) / 2 by omega)]
      have hmh : (low + high + 1) / 2 < high := by
        rcases eq_or_lt_of_le hmid2 with he | hl
        · exfalso; rw [he] at htb; omega
        · exact hl
      exact ih _ high hmh hhn htb hhigh (by omega)
    · rw [if_neg htb]
      rw [if_neg (show ¬ high < (low + high + 1) / 2 by omega)]
      by_cases hmh : (low + high + 1) / 2 = high
      · rw [if_pos hmh]
        rw [if_neg (show ¬ tok (pyslice text ((low + high + 1) / 2)) = max_tokens by omega)]
        rw [if_neg htb]
        rw [show (low + high + 1) / 2 - 1 = low by omega]
        obtain ⟨m, rfl⟩ : ∃ m, n = m + 1 := ⟨n - 1, by omega⟩
        rw [bs_loop]
        rw [if_neg (show ¬ low < low by omega)]
        rw [if_neg (show ¬ low ≠ low by simp)]
        rw [cached_ok tok text low (by omega)]
        simp only []
        rw [if_neg (show ¬ max_tokens < tok (pyslice text low) by omega)]
        exact ⟨low, rfl⟩
      · rw [if_neg hmh]
        exact ih low _ (by omega) (by omega) hlow (by omega) (by omega)

theorem bs_isSome (tok : List Char → Nat) (text : List Char) (max_tokens : Nat) :
    ∀ (fuel : Nat) (low high : Int),
      (high - low).toNat + 1 ≤ fuel →
      (bs_loop fuel tok text max_tokens low high).isSome := by
  intro fuel
  induction fuel with
  | zero => intro low high hf; omega
  | succ n ih =>
    intro low high hf
    rw [bs_loop]
    by_cases hlh : low < high
    · rw [if_pos hlh]
      simp only []
      have hmid1 : low + 1 ≤ (low + high + 1) / 2 := by omega
      have hmid2 : (low + high + 1) / 2 ≤ high := by omega
      rcases hc : cached_encode_length tok text ((low + high + 1) / 2) with e | mt <;>
        simp only []
      · simp
      · by_cases htb : mt ≤ max_tokens
        · rw [if_pos htb]
          rw [if_neg (show ¬ (low + high + 1) / 2 < low by omega)]
          rw [if_neg (show ¬ (low + high + 1) / 2 = low by omega)]
          rw [if_neg (show ¬ high < (low + high + 1) / 2 by omega)]
          exact ih _ high (by omega)
        · rw [if_neg htb]
          rw [if_neg (show ¬ high < (low + high + 1) / 2 by omega)]
          by_cases hmh : (low + high + 1) / 2 = high
          · rw [if_pos hmh]
            by_cases hteq : mt = max_tokens
            · rw [if_pos hteq]; simp
            · rw [if_neg hteq, if_neg htb]
              exact ih low _ (by omega)
          · rw [if_neg hmh]
            exact ih low _ (by omega)
    · rw [if_neg hlh]
      by_cases heq : low ≠ high
      · rw [if_pos heq]; simp
      · rw [if_neg heq]
        rcases hc : cached_encode_length tok text low with e | t <;> simp only []
        · simp
        · split <;> simp

theorem binary_search_ok_inv (tok : List Char → Nat) (text : List Char)
    (max_tokens : Nat) (fuel : Nat) (low high L : Int)
    (h : binary_search_max_length fuel tok text low high max_tokens = some (.ok L)) :
    low ≤ L ∧ L + 1 ≤ high ∧ tok (pyslice text L) ≤ max_tokens ∧
      max_tokens < tok (pyslice text (L + 1)) := by
  unfold binary_search_max_length at h
  rcases hc : cached_encode_length tok text high with e | th <;>
    rw [hc] at h <;> simp only [] at h
  · cases h
  · obtain ⟨hhn, hth⟩ := cached_ok_inv tok text high th hc
    by_cases h1 : th ≤ max_tokens
    · rw [if_pos h1] at h; cases h
    · rw [if_neg h1] at h
      rcases hc2 : cached_encode_length tok text low with e | tl <;>
        rw [hc2] at h <;> simp only [] at h
      · cases h
      · obtain ⟨hln, htl⟩ := cached_ok_inv tok text low tl hc2
        by_cases h2 : max_tokens < tl
        · rw [if_pos h2] at h; cases h
        · rw [if_neg h2] at h
          exact bs_sound tok text max_tokens fuel low high L (by omega) (by omega) h

theorem binary_search_run (tok : List Char → Nat) (text : List Char)
    (max_tokens : Nat) (fuel : Nat) (low high : Int)
    (hlh : low < high) (hhn : high ≤ (text.length : Int))
    (hlow : tok (pyslice text low) ≤ max_tokens)
    (hhigh : max_tokens < tok (pyslice text high))
    (hf : (high - low).toNat + 1 ≤ fuel) :
    ∃ L, binary_search_max_length fuel tok text low high max_tokens = some (.ok L) := by
  unfold binary_search_max_length
  rw [cached_ok tok text high hhn]
  simp only []
  rw [if_neg (show ¬ tok (pyslice text high) ≤ max_tokens by omega)]
  rw [cached_ok tok text low (by omega)]
  simp only []
  rw [if_neg (show ¬ max_tokens < tok (pyslice text low) by omega)]
  exact bs_run tok text max_tokens fuel low high hlh hhn hlow hhigh hf


theorem cached_err (tok : List Char → Nat) (text : List Char) (k : Int)
    (h : (text.length : Int) < k) :
    cached_encode_length tok text k =
      Except.error "AssertionError: length is greater than text" := by
  unfold cached_encode_length
  rw [if_pos (by omega)]

theorem truncate_go_inv (fuel : Nat) (tok : List Char → Nat) (max_tokens : Nat)
    (text : List Char) (high0 : Int) (r : List Char)
    (hh0 : high0 ≤ (text.length : Int))
    (h : truncate_go fuel tok max_tokens text high0 = some (.ok r)) :
    r = text ∨
      ∃ L : Int, r = pyslice text L ∧ 1 ≤ L ∧ L + 1 ≤ (text.length : Int) ∧
        tok (pyslice text L) ≤ max_tokens ∧
        max_tokens < tok (pyslice text (L + 1)) := by
  unfold truncate_go at h
  rcases he : expand_high fuel tok text high0 max_tokens with _ | e | high <;>
    rw [he] at h <;> simp only [] at h
  · cases h
  · cases h
  · by_cases hn : high = (text.length : Int)
    · rw [if_pos hn] at h
      injection h with h
      injection h with h
      exact Or.inl h.symm
    · rw [if_neg hn] at h
      have hhn : high ≤ (text.length : Int) :=
        expand_high_le tok text max_tokens fuel high0 high hh0 he
      rcases hl : expand_low fuel tok text high0 max_tokens with _ | e | low <;>
        rw [hl] at h <;> simp only [] at h
      · cases h
      · cases h
      · obtain ⟨hlp, hln, hltok⟩ := expand_low_ok tok text max_tokens fuel high0 low hl
        rcases hc : cached_encode_length tok text high with e | t <;>
          rw [hc] at h <;> simp only [] at h
        · cases h
        · by_cases ht : t ≤ max_tokens
          · rw [if_pos ht] at h; cases h
          · rw [if_neg ht] at h
            rcases hb : binary_search_max_length fuel tok text low high max_tokens
                with _ | e | L <;> rw [hb] at h <;> simp only [] at h
            · cases h
            · cases h
            · obtain ⟨h1, h2, h3, h4⟩ :=
                binary_search_ok_inv tok text max_tokens fuel low high L hb
              injection h with h
              injection h with h
              exact Or.inr ⟨L, h.symm, by omega, by omega, h3, h4⟩


/-- Claim C1 (code bug): the spec promises that the result of
`truncate_document_to_max_tokens` never exceeds the model's budget, but the
orchestrator returns the full text whenever the bound reaches `len(text)`
without re-checking its token count (lines 163-175).  Here the budget is 1,
the tokenizer counts one token per character (a monotone counter), the
estimate is 2 ≥ len(text): the whole two-character text is returned with 2
tokens > budget 1. -/
theorem truncate_can_exceed_budget :
    truncate_document_to_max_tokens 3 List.length 1 2
        (String.toList "ab") = some (Except.ok (String.toList "ab")) ∧
      1 < List.length (String.toList "ab") := by
  constructor
  · rfl
  · decide

/-- Claim C5: every string returned by `truncate_document_to_max_tokens` is
a prefix of the input text (position-for-position equal up to its length,
and no longer than the input). -/
theorem truncate_returns_initial_segment (fuel : Nat) (tok : List Char → Nat)
    (max_tokens : Nat) (estimated_length : Int) (text r : List Char)
    (h : truncate_document_to_max_tokens fuel tok max_tokens estimated_length
        text = some (.ok r)) :
    r <+: text := by
  unfold truncate_document_to_max_tokens at h
  by_cases hest : (text.length : Int) ≤ estimated_length
  · rw [if_pos hest, cached_ok tok text _ (le_refl _)] at h
    simp only [] at h
    by_cases ht : tok (pyslice text (text.length : Int)) ≤ max_tokens
    · rw [if_pos ht] at h
      injection h with h
      injection h with h
      rw [← h]
    · rw [if_neg ht] at h
      rcases truncate_go_inv fuel tok max_tokens text _ r (le_refl _) h with
          h1 | ⟨L, hL, _⟩
      · rw [h1]
      · rw [hL]
        exact pyslice_sub text L
  · rw [if_neg hest] at h
    rcases truncate_go_inv fuel tok max_tokens text _ r (by omega) h with
        h1 | ⟨L, hL, _⟩
    · rw [h1]
    · rw [hL]
      exact pyslice_sub text L

/-- Witness for C5 at a concrete run: budget 1, per-character tokenizer,
estimate 1, text "abc"; the run returns "a", a prefix of "abc". -/
theorem truncate_returns_initial_segment_witness :
    String.toList "a" <+: String.toList "abc" :=
  truncate_returns_initial_segment 10 List.length 1 1
    (String.toList "abc") (String.toList "a") rfl

/-- Claim C3: when `truncate_document_to_max_tokens` returns a proper prefix
(length `L < len(text)`), the prefix one character longer is over budget:
`count_tokens(text[:L+1]) > max_tokens`.  This holds for every tokenizer
(no monotonicity needed): the returned length comes out of the binary
search, whose only successful exit pins `count(L) ≤ budget < count(L+1)`. -/
theorem truncate_maximal (fuel : Nat) (tok : List Char → Nat)
    (max_tokens : Nat) (estimated_length : Int) (text r : List Char)
    (h : truncate_document_to_max_tokens fuel tok max_tokens estimated_length
        text = some (.ok r))
    (hlt : r.length < text.length) :
    max_tokens < tok (text.take (r.length + 1)) := by
  have main : ∀ high0 : Int, high0 ≤ (text.length : Int) →
      truncate_go fuel tok max_tokens text high0 = some (.ok r) →
      max_tokens < tok (text.take (r.length + 1)) := by
    intro high0 hh0 hgo
    rcases truncate_go_inv fuel tok max_tokens text high0 r hh0 hgo with
        h1 | ⟨L, hL, hL1, hLn, hok, hover⟩
    · rw [h1] at hlt
      omega
    · have hlen : r.length = L.toNat := by
        rw [hL]
        exact pyslice_length_eq text L (by omega) (by omega)
      rw [hlen]
      have hsl : text.take (L.toNat + 1) = pyslice text (L + 1) := by
        rw [pyslice_of_nonneg text (L + 1) (by omega)]
        congr 1
        omega
      rw [hsl]
      exact hover
  unfold truncate_document_to_max_tokens at h
  by_cases hest : (text.length : Int) ≤ estimated_length
  · rw [if_pos hest, cached_ok tok text _ (le_refl _)] at h
    simp only [] at h
    by_cases ht : tok (pyslice text (text.length : Int)) ≤ max_tokens
    · rw [if_pos ht] at h
      injection h with h
      injection h with h
      rw [← h] at hlt
      omega
    · rw [if_neg ht] at h
      exact main _ (le_refl _) h
  · rw [if_neg hest] at h
    exact main _ (by omega) h

/-- Witness for C3 at a concrete run: budget 1, per-character tokenizer,
estimate 1, text "abc"; the result "a" has length 1 < 3 and the
two-character prefix counts 2 > 1 tokens. -/
theorem truncate_maximal_witness :
    1 < List.length ((String.toList "abc").take
      ((String.toList "a").length + 1)) :=
  truncate_maximal 10 List.length 1 1 (String.toList "abc")
    (String.toList "a") rfl (by decide)

/-- Claim C7, counterexample: `cached_encode_length` does not fail for a
negative length; Python slicing makes `text[:-1]` the text minus its last
character, so the call silently succeeds (here with token count 2 for the
per-character tokenizer on "abc"[:-1] = "ab"). -/
theorem cached_encode_length_negative_no_error :
    cached_encode_length List.length (String.toList "abc") (-1) =
      Except.ok 2 := by
  rfl

/-- Claim C7, amended: `cached_encode_length` fails loudly if and only if
`length > len(text)`; a negative length is not rejected (it is interpreted
by Python slicing, counting a suffix-clamped prefix), so only the upper
precondition bound is enforced. -/
theorem cached_encode_length_error_iff (tok : List Char → Nat)
    (text : List Char) (length : Int) :
    (∃ s, cached_encode_length tok text length = Except.error s) ↔
      (text.length : Int) < length := by
  constructor
  · intro ⟨s, hs⟩
    by_contra hcon
    rw [cached_ok tok text length (by omega)] at hs
    cases hs
  · intro hlen
    exact ⟨_, cached_err tok text length hlen⟩

/-- Claim C8: if the binary-search precondition is violated on entry (the
count at `high` is within budget, or the count at `low` exceeds it),
`binary_search_max_length` raises an assertion error instead of returning a
length. -/
theorem binary_search_entry_violation (fuel : Nat) (tok : List Char → Nat)
    (text : List Char) (low high : Int) (max_tokens : Nat)
    (h : tok (pyslice text high) ≤ max_tokens ∨
      max_tokens < tok (pyslice text low)) :
    ∃ s, binary_search_max_length fuel tok text low high max_tokens =
      some (.error s) := by
  unfold binary_search_max_length
  by_cases hhn : high ≤ (text.length : Int)
  · rw [cached_ok tok text high hhn]
    simp only []
    by_cases h1 : tok (pyslice text high) ≤ max_tokens
    · rw [if_pos h1]
      exact ⟨_, rfl⟩
    · rw [if_neg h1]
      have h2 : max_tokens < tok (pyslice text low) := h.resolve_left h1
      by_cases hln : low ≤ (text.length : Int)
      · rw [cached_ok tok text low hln]
        simp only []
        rw [if_pos h2]
        exact ⟨_, rfl⟩
      · rw [cached_err tok text low (by omega)]
        simp only []
        exact ⟨_, rfl⟩
  · rw [cached_err tok text high (by omega)]
    simp only []
    exact ⟨_, rfl⟩

/-- Witness for C8: on "a" with budget 5, the window (0, 1) violates the
precondition (the count at high = 1 is 1 ≤ 5), and the call errors. -/
theorem binary_search_entry_violation_witness :
    ∃ s, binary_search_max_length 1 List.length (String.toList "a") 0 1 5 =
      some (.error s) :=
  binary_search_entry_violation 1 List.length (String.toList "a") 0 1 5
    (Or.inl (by decide))

/-- Claim C9: both loops terminate.  `expand_high` grows its candidate by
at least one character per iteration until clamped at `len(text)` (or an
immediate assertion for an out-of-range start), and the binary search
strictly shrinks its window each iteration, so fuel `len(text) - high + 1`
resp. `high - low + 1` always suffices to produce an outcome, for every
tokenizer and every starting window. -/
theorem expansion_and_search_terminate (tok : List Char → Nat)
    (text : List Char) (max_tokens : Nat) (high low' high' : Int) :
    (expand_high (((text.length : Int) - high).toNat + 1) tok text high
        max_tokens).isSome ∧
    (binary_search_max_length ((high' - low').toNat + 1) tok text low' high'
        max_tokens).isSome := by
  constructor
  · exact expand_high_isSome tok text max_tokens _ high (le_refl _)
  · unfold binary_search_max_length
    rcases hc : cached_encode_length tok text high' with e | th <;> simp only []
    · simp
    · by_cases h1 : th ≤ max_tokens
      · rw [if_pos h1]
        simp
      · rw [if_neg h1]
        rcases hc2 : cached_encode_length tok text low' with e | tl <;> simp only []
        · simp
        · by_cases h2 : max_tokens < tl
          · rw [if_pos h2]
            simp
          · rw [if_neg h2]
            exact bs_isSome tok text max_tokens _ low' high' (le_refl _)

/-- Claim C10: when `expand_low` is invoked at `low = 0` and the tokenizer
gives the empty string zero tokens (as tiktoken does), the length-0 prefix
is within every budget, yet the post-loop check `low <= 0` raises an
`AssertionError` instead of returning 0; and no `expand_low` call can ever
return the length 0. -/
theorem expand_low_zero_asserts (tok : List Char → Nat) (text : List Char)
    (max_tokens : Nat) (fuel : Nat)
    (hempty : tok [] = 0) (hfuel : 1 ≤ fuel) :
    (∃ s, expand_low fuel tok text 0 max_tokens = some (.error s)) ∧
    ∀ (f : Nat) (low : Int),
      expand_low f tok text low max_tokens ≠ some (.ok 0) := by
  constructor
  · obtain ⟨m, rfl⟩ : ∃ m, fuel = m + 1 := ⟨fuel - 1, by omega⟩
    rw [expand_low, cached_ok tok text 0 (by omega)]
    simp only []
    have h0 : tok (pyslice text 0) = 0 := by
      rw [pyslice_of_nonneg text 0 (le_refl 0)]
      simpa using hempty
    rw [h0, if_neg (by omega), if_pos (le_refl (0 : Int))]
    exact ⟨_, rfl⟩
  · intro f low h
    have := expand_low_ok tok text max_tokens f low 0 h
    omega

/-- Witness for C10 with the constant-zero tokenizer on "a", budget 0. -/
theorem expand_low_zero_asserts_witness :
    (∃ s, expand_low 1 (fun _ => 0) (String.toList "a") 0 0 =
      some (.error s)) ∧
    ∀ (f : Nat) (low : Int),
      expand_low f (fun _ => 0) (String.toList "a") low 0 ≠ some (.ok 0) :=
  expand_low_zero_asserts (fun _ => 0) (String.toList "a") 0 1 rfl
    (le_refl 1)


/-- Claim C2: under the precondition `count(low) ≤ budget < count(high)`
(with a window inside the text) and prefix-monotonicity of the tokenizer,
`binary_search_max_length` terminates (with the shown explicit fuel) and
returns the maximal prefix length whose token count is within the budget. -/
theorem binary_search_max_length_correct (fuel : Nat) (tok : List Char → Nat)
    (text : List Char) (low high : Int) (max_tokens : Nat)
    (hmono : PrefixMonotone tok)
    (h0 : 0 ≤ low) (hlh : low < high) (hhn : high ≤ (text.length : Int))
    (hlow : tok (pyslice text low) ≤ max_tokens)
    (hhigh : max_tokens < tok (pyslice text high))
    (hfuel : (high - low).toNat + 1 ≤ fuel) :
    ∃ L, binary_search_max_length fuel tok text low high max_tokens =
        some (.ok L) ∧
      low ≤ L ∧ L < high ∧ tok (pyslice text L) ≤ max_tokens ∧
      ∀ k : Int, 0 ≤ k → k ≤ (text.length : Int) →
        tok (pyslice text k) ≤ max_tokens → k ≤ L := by
  obtain ⟨L, hL⟩ :=
    binary_search_run tok text max_tokens fuel low high hlh hhn hlow hhigh hfuel
  obtain ⟨h1, h2, h3, h4⟩ :=
    binary_search_ok_inv tok text max_tokens fuel low high L hL
  refine ⟨L, hL, h1, by omega, h3, ?_⟩
  intro k hk0 hkn hk
  by_contra hcon
  push_neg at hcon
  have hpf : pyslice text (L + 1) <+: pyslice text k := by
    rw [pyslice_of_nonneg text (L + 1) (by omega), pyslice_of_nonneg text k hk0]
    have heq : (text.take k.toNat).take (L + 1).toNat = text.take (L + 1).toNat := by
      rw [List.take_take]
      congr 1
      omega
    exact heq ▸
      ⟨(text.take k.toNat).drop ((L + 1).toNat), List.take_append_drop _ _⟩
  have := hmono _ _ hpf
  omega

/-- Witness for C2: per-character tokenizer on "abc", budget 1, window
(1, 2): the search returns the maximal in-budget length 1. -/
theorem binary_search_max_length_correct_witness :
    ∃ L, binary_search_max_length 2 List.length (String.toList "abc") 1 2 1 =
        some (.ok L) ∧
      1 ≤ L ∧ L < 2 ∧ List.length (pyslice (String.toList "abc") L) ≤ 1 ∧
      ∀ k : Int, 0 ≤ k → k ≤ ((String.toList "abc").length : Int) →
        List.length (pyslice (String.toList "abc") k) ≤ 1 → k ≤ L :=
  binary_search_max_length_correct 2 List.length (String.toList "abc") 1 2 1
    (fun s t h => h.length_le) (by decide) (by decide) (by decide)
    (by decide) (by decide) (by decide)

/-- Claim C4: if the full text is within budget (and the tokenizer is
prefix-monotone, the spec's standing assumption), the input is returned
unchanged, whatever nonnegative estimate the rate produced. -/
theorem truncate_full_text_within_budget (fuel : Nat) (tok : List Char → Nat)
    (max_tokens : Nat) (estimated_length : Int) (text : List Char)
    (hmono : PrefixMonotone tok) (hok : tok text ≤ max_tokens)
    (hest : 0 ≤ estimated_length) (hfuel : text.length + 1 ≤ fuel) :
    truncate_document_to_max_tokens fuel tok max_tokens estimated_length text =
      some (.ok text) := by
  unfold truncate_document_to_max_tokens
  have hall : ∀ k : Int, 0 ≤ k → k ≤ (text.length : Int) →
      tok (pyslice text k) ≤ max_tokens :=
    fun k _ _ => le_trans (hmono _ _ (pyslice_sub text k)) hok
  by_cases hcase : (text.length : Int) ≤ estimated_length
  · rw [if_pos hcase, cached_ok tok text _ (le_refl _)]
    simp only []
    rw [pyslice_full, if_pos hok]
  · rw [if_neg hcase]
    unfold truncate_go
    rw [expand_high_full tok text max_tokens hall fuel estimated_length hest
      (by omega) (by omega)]
    simp

/-- Witness for C4: per-character tokenizer, text "ab" (2 tokens), budget 3,
estimate 0: the text comes back unchanged. -/
theorem truncate_full_text_within_budget_witness :
    truncate_document_to_max_tokens 3 List.length 3 0 (String.toList "ab") =
      some (.ok (String.toList "ab")) :=
  truncate_full_text_within_budget 3 List.length 3 0 (String.toList "ab")
    (fun s t h => h.length_le) (by decide) (by decide) (by decide)


/-- Claim C6: `truncate_document_to_max_tokens` is idempotent (under the
spec's standing prefix-monotonicity assumption on the tokenizer): if a run
returns `r`, running again on `r` with the same model (same budget and the
same estimate, which depend only on the model) returns `r` unchanged, with
any fuel of at least `len(r) + 1`. -/
theorem truncate_idempotent (f g : Nat) (tok : List Char → Nat)
    (max_tokens : Nat) (estimated_length : Int) (text r : List Char)
    (hmono : PrefixMonotone tok) (hest : 0 ≤ estimated_length)
    (h : truncate_document_to_max_tokens f tok max_tokens estimated_length
        text = some (.ok r))
    (hg : r.length + 1 ≤ g) :
    truncate_document_to_max_tokens g tok max_tokens estimated_length r =
      some (.ok r) := by
  unfold truncate_document_to_max_tokens at h
  by_cases hest1 : (text.length : Int) ≤ estimated_length
  · rw [if_pos hest1, cached_ok tok text _ (le_refl _)] at h
    simp only [] at h
    by_cases ht : tok (pyslice text (text.length : Int)) ≤ max_tokens
    · rw [if_pos ht] at h
      injection h with h
      injection h with h
      subst h
      unfold truncate_document_to_max_tokens
      rw [if_pos hest1, cached_ok tok text _ (le_refl _)]
      simp only []
      rw [if_pos ht]
    · rw [if_neg ht] at h
      obtain ⟨m, rfl⟩ : ∃ m, f = m + 1 := by
        cases f with
        | zero =>
          exfalso
          unfold truncate_go at h
          simp [expand_high] at h
        | succ m => exact ⟨m, rfl⟩
      have he : expand_high (m + 1) tok text (text.length : Int) max_tokens =
          some (.ok (text.length : Int)) := by
        rw [expand_high, cached_ok tok text _ (le_refl _)]
        simp only []
        rw [if_neg ht]
      unfold truncate_go at h
      rw [he] at h
      simp at h
      subst h
      unfold truncate_document_to_max_tokens
      rw [if_pos hest1, cached_ok tok text _ (le_refl _)]
      simp only []
      rw [if_neg ht]
      obtain ⟨k, rfl⟩ : ∃ k, g = k + 1 := ⟨g - 1, by omega⟩
      have he2 : expand_high (k + 1) tok text (text.length : Int) max_tokens =
          some (.ok (text.length : Int)) := by
        rw [expand_high, cached_ok tok text _ (le_refl _)]
        simp only []
        rw [if_neg ht]
      unfold truncate_go
      rw [he2]
      simp
  · rw [if_neg hest1] at h
    unfold truncate_go at h
    rcases he : expand_high f tok text estimated_length max_tokens
        with _ | e | high <;> rw [he] at h <;> simp only [] at h
    · cases h
    · cases h
    · by_cases hn : high = (text.length : Int)
      · rw [if_pos hn] at h
        injection h with h
        injection h with h
        subst h
        unfold truncate_document_to_max_tokens
        rw [if_neg hest1]
        unfold truncate_go
        rw [expand_high_det tok text max_tokens f g estimated_length
          (.ok high) he (by omega)]
        simp only []
        rw [if_pos hn]
      · rw [if_neg hn] at h
        rcases hl : expand_low f tok text estimated_length max_tokens
            with _ | e | low <;> rw [hl] at h <;> simp only [] at h
        · cases h
        · cases h
        · obtain ⟨hlp, hln, hltok⟩ :=
            expand_low_ok tok text max_tokens f estimated_length low hl
          rcases hc : cached_encode_length tok text high with e | t <;>
            rw [hc] at h <;> simp only [] at h
          · cases h
          · by_cases ht2 : t ≤ max_tokens
            · rw [if_pos ht2] at h
              cases h
            · rw [if_neg ht2] at h
              rcases hb : binary_search_max_length f tok text low high
                  max_tokens with _ | e | L <;> rw [hb] at h <;>
                simp only [] at h
              · cases h
              · cases h
              · obtain ⟨hLl, hLh, hLok, hLover⟩ :=
                  binary_search_ok_inv tok text max_tokens f low high L hb
                injection h with h
                injection h with h
                have hhn : high ≤ (text.length : Int) :=
                  expand_high_le tok text max_tokens f estimated_length high
                    (by omega) he
                have hLn : L ≤ (text.length : Int) := by omega
                have hrtok : tok r ≤ max_tokens := by
                  rw [← h]
                  exact hLok
                have hrlen : (r.length : Int) = L := by
                  rw [← h, pyslice_length_eq text L (by omega) hLn]
                  omega
                unfold truncate_document_to_max_tokens
                by_cases hest2 : (r.length : Int) ≤ estimated_length
                · rw [if_pos hest2, cached_ok tok r _ (le_refl _)]
                  simp only []
                  rw [pyslice_full, if_pos hrtok]
                · rw [if_neg hest2]
                  unfold truncate_go
                  have hall : ∀ k : Int, 0 ≤ k → k ≤ (r.length : Int) →
                      tok (pyslice r k) ≤ max_tokens :=
                    fun k _ _ => le_trans (hmono _ _ (pyslice_sub r k)) hrtok
                  rw [expand_high_full tok r max_tokens hall g
                    estimated_length hest (by omega) (by omega)]
                  simp

/-- Witness for C6: the run of C1's failing input returns "ab", and a
second run on "ab" returns it again. -/
theorem truncate_idempotent_witness :
    truncate_document_to_max_tokens 3 List.length 1 2 (String.toList "ab") =
      some (Except.ok (String.toList "ab")) :=
  truncate_idempotent 3 3 List.length 1 2 (String.toList "ab")
    (String.toList "ab") (fun s t hp => hp.length_le) (by decide) rfl
    (by decide)

end TiktokenTruncate
